import Mathlib

/-!
Verification development for the dbprobe PostgreSQL wire-protocol interceptor.

Strings from the Rust sources are modelled as lists of bytes (`List Nat`),
matching the byte-by-byte processing done by the code (`sql.as_bytes()`).
Case folding is modelled bytewise on ASCII, which coincides with the Rust
`to_uppercase`/`to_lowercase` behaviour on ASCII input; every concrete input
appearing in the claims is ASCII.

Loops whose index advances by a data-dependent amount are modelled with an
explicit fuel argument equal to the input length; each loop iteration of the
source consumes at least one byte, so this fuel is always sufficient.
-/

/-- Bytes of an ASCII string literal, used to state concrete test cases. -/
def asciiBytes (s : String) : List Nat := s.data.map Char.toNat

/-- ASCII digit test, as Rust u8::is_ascii_digit. -/
def isDigitByte (b : Nat) : Bool := 48 ≤ b && b ≤ 57

/-- ASCII uppercase-letter test. -/
def isUpperByte (b : Nat) : Bool := 65 ≤ b && b ≤ 90

/-- ASCII lowercase-letter test. -/
def isLowerByte (b : Nat) : Bool := 97 ≤ b && b ≤ 122

/-- ASCII letter test, as Rust u8::is_ascii_alphabetic. -/
def isAlphaByte (b : Nat) : Bool := isUpperByte b || isLowerByte b

/-- ASCII letter-or-digit test, as Rust u8::is_ascii_alphanumeric. -/
def isAlnumByte (b : Nat) : Bool := isAlphaByte b || isDigitByte b

/-- Identifier byte: letter, digit or underscore (the check
`is_ascii_alphanumeric() || b == b'_'` used throughout fingerprint.rs). -/
def isIdentByte (b : Nat) : Bool := isAlnumByte b || b == 95

/-- ASCII whitespace test, as Rust u8::is_ascii_whitespace
(space, tab, newline, form feed, carriage return). -/
def isSpaceByte (b : Nat) : Bool :=
  b == 32 || b == 9 || b == 10 || b == 12 || b == 13

/-- ASCII lowercasing of one byte. -/
def toLowerByte (b : Nat) : Nat := if isUpperByte b then b + 32 else b

/-- ASCII uppercasing of one byte. -/
def toUpperByte (b : Nat) : Nat := if isLowerByte b then b - 32 else b

/-- Whether the byte just before the current scan position is an identifier
byte; `none` models position 0 (the Rust code guards with `i > 0`). -/
def prevIsIdent (prev : Option Nat) : Bool :=
  match prev with
  | none => false
  | some b => isIdentByte b

/-- Whether the byte just before the current position is a letter or digit;
`none` models position 0 (the `i == 0 || !bytes[i-1].is_ascii_alphanumeric()`
check of normalize_in_lists). -/
def prevIsAlnum (prev : Option Nat) : Bool :=
  match prev with
  | none => false
  | some b => isAlnumByte b

/-! ### fingerprint.rs -/

/-- Guard of the dollar-quote arm of the scanner: the byte after `$` is
another `$`, a letter, or an underscore
(`bytes[i+1] == b'$' || bytes[i+1].is_ascii_alphabetic() || bytes[i+1] == b'_'`). -/
def dollarGuard (rest : List Nat) : Bool :=
  match rest with
  | [] => false
  | b :: _ => b == 36 || isAlphaByte b || b == 95

/-- Length of a dollar-quote opening tag including both dollar signs, given
the bytes after the opening `$`; `none` when no closing `$` terminates the
tag. Mirrors find_dollar_tag_end: an immediate `$` gives the tag `$$`,
otherwise a run of alphanumeric-or-underscore bytes must be closed by `$`. -/
def findTagLen (l : List Nat) : Option Nat :=
  let run := (l.takeWhile fun b => isIdentByte b).length
  match l.drop run with
  | c :: _ => if c == 36 then some (run + 2) else none
  | [] => none

/-- Skip forward to just past the closing dollar-quote tag. Returns the byte
preceding the remainder together with the remainder. Mirrors the
`while i + tag.len() <= len` search loop: if the tag is found the position
moves past it, otherwise the loop stops as soon as fewer than `tag.len()`
bytes remain, leaving those trailing bytes for the outer scan. -/
def skipToTag (tag : List Nat) : Nat → List Nat → Nat × List Nat
  | prev, [] => (prev, [])
  | prev, c :: t =>
    if (c :: t).length < tag.length then (prev, c :: t)
    else if tag.isPrefixOf (c :: t) then (36, (c :: t).drop tag.length)
    else skipToTag tag c t

/-- Skip a single-quoted string literal body: consume up to and past the
closing quote, treating a doubled quote as an escaped quote. Input is the
byte list just after the opening quote. -/
def skipStringLit : List Nat → List Nat
  | [] => []
  | c :: t =>
    if c == 39 then
      match t with
      | c2 :: t2 => if c2 == 39 then skipStringLit t2 else t
      | [] => []
    else skipStringLit t

/-- Byte that continues a numeric literal in the scanner: digit or dot
(`bytes[i].is_ascii_digit() || bytes[i] == b'.'`). -/
def numByte (b : Nat) : Bool := isDigitByte b || b == 46

/-- Consume the body of a numeric literal (digits and dots), returning the
last consumed byte (initially `prev`) and the remainder. -/
def consumeNum : Nat → List Nat → Nat × List Nat
  | prev, [] => (prev, [])
  | prev, c :: t => if numByte c then consumeNum c t else (prev, c :: t)

/-- The byte-scanning pass of fingerprint: string literals become `$S`,
dollar-quoted literals become `$S`, numeric literals not preceded by an
identifier byte become `$N`, everything else is copied. `prev` is the byte
before the current position in the input. Fuel bounds the iteration count;
every iteration consumes at least one input byte, so fuel equal to the
input length suffices. -/
def scanAux : Nat → Option Nat → List Nat → List Nat
  | 0, _, _ => []
  | _ + 1, _, [] => []
  | fuel + 1, prev, c :: rest =>
    if c == 39 then
      36 :: 83 :: scanAux fuel (some 39) (skipStringLit rest)
    else if c == 36 && dollarGuard rest then
      match findTagLen rest with
      | some tagLen =>
        let tag := 36 :: rest.take (tagLen - 1)
        let s := skipToTag tag 36 (rest.drop (tagLen - 1))
        36 :: 83 :: scanAux fuel (some s.1) s.2
      | none => 36 :: scanAux fuel (some 36) rest
    else if isDigitByte c then
      if prevIsIdent prev then c :: scanAux fuel (some c) rest
      else
        let s := consumeNum c rest
        36 :: 78 :: scanAux fuel (some s.1) s.2
    else c :: scanAux fuel (some c) rest

/-- The full literal-elision scan of fingerprint. -/
def fpScan (l : List Nat) : List Nat := scanAux l.length none l

/-- Skip ASCII whitespace, as the `while j < len && whitespace` loop of
normalize_in_lists. -/
def skipWs : List Nat → List Nat
  | [] => []
  | c :: t => if isSpaceByte c then skipWs t else c :: t

/-- Scan the parenthesized content of a candidate IN list: only `$N` / `$S`
placeholders separated by commas and spaces are allowed, at least one
placeholder must occur, and a closing parenthesis must be reached. Returns
the bytes after the closing parenthesis on success. -/
def placeholdersScan : Bool → List Nat → Option (List Nat)
  | _, [] => none
  | hasP, c :: t =>
    if c == 41 then (if hasP then some t else none)
    else if c == 36 then
      match t with
      | d :: t2 => if d == 78 || d == 83 then placeholdersScan true t2 else none
      | [] => none
    else if c == 44 || c == 32 then placeholdersScan hasP t
    else none

/-- Lookahead after the two `IN` bytes: skip whitespace, require an opening
parenthesis, then require an all-placeholder list. Returns the bytes after
the closing parenthesis on success. -/
def inListAfterIN (l : List Nat) : Option (List Nat) :=
  match skipWs l with
  | 40 :: t => placeholdersScan false t
  | _ => none

/-- One fused pass of normalize_in_lists. At a case-insensitive `IN` that is
not preceded by a letter or digit and that has at least one byte after it,
a successful lookahead replaces `IN ( placeholders )` by the original two
`IN` bytes followed by ` ($...)`; otherwise one byte is copied. Fuel equal
to the input length suffices. -/
def normAux : Nat → Option Nat → List Nat → List Nat
  | 0, _, _ => []
  | _ + 1, _, [] => []
  | fuel + 1, prev, c1 :: c2 :: c3 :: r3 =>
    if toUpperByte c1 == 73 && toUpperByte c2 == 78 && !prevIsAlnum prev then
      match inListAfterIN (c3 :: r3) with
      | some rem =>
        c1 :: c2 :: 32 :: 40 :: 36 :: 46 :: 46 :: 46 :: 41 ::
          normAux fuel (some 41) rem
      | none => c1 :: normAux fuel (some c1) (c2 :: c3 :: r3)
    else c1 :: normAux fuel (some c1) (c2 :: c3 :: r3)
  | fuel + 1, _, c :: rest => c :: normAux fuel (some c) rest

/-- The normalize_in_lists pass of fingerprint.rs. -/
def normalizeInLists (l : List Nat) : List Nat := normAux l.length none l

/-- The fingerprint normalizer of fingerprint.rs: literal-elision scan, IN
list collapsing, then lowercasing. -/
def fingerprint (l : List Nat) : List Nat :=
  (normalizeInLists (fpScan l)).map toLowerByte

/-! ### protocol/mod.rs and protocol/postgres.rs -/

/-- Direction of a message in the proxy. -/
inductive Direction
  | Frontend
  | Backend
deriving DecidableEq, Repr

/-- Transaction status from ReadyForQuery. -/
inductive TxStatus
  | Idle
  | InTransaction
  | Failed
deriving DecidableEq, Repr

/-- Raw event from the protocol parser, one wire protocol message. -/
inductive ProtoEvent
  | QueryStart (sql : List Nat)
  | QueryComplete (tag : List Nat) (rows : Option Nat)
  | QueryError (severity code message : List Nat)
  | ConnectionReady (status : TxStatus)
  | ParseDetected (sql : List Nat)
  | ConnectionClosed
  | Unknown (tag : Nat)
deriving DecidableEq, Repr

/-- Connection phase state machine for the PostgreSQL wire protocol. -/
inductive ConnPhase
  | AwaitingStartup
  | AwaitingStartupAfterSslReject
  | Authenticating
  | Ready
deriving DecidableEq, Repr

/-- Lookup in an association-list model of HashMap; first matching key wins. -/
def alookup {α β : Type} [DecidableEq α] (m : List (α × β)) (k : α) : Option β :=
  match m with
  | [] => none
  | (k2, v) :: rest => if k2 = k then some v else alookup rest k

/-- Insert-or-overwrite in the association-list model of HashMap. -/
def ainsert {α β : Type} [DecidableEq α] (m : List (α × β)) (k : α) (v : β) :
    List (α × β) :=
  (k, v) :: m.filter (fun p => p.1 ≠ k)

/-- Removal in the association-list model of HashMap. -/
def aremove {α β : Type} [DecidableEq α] (m : List (α × β)) (k : α) :
    List (α × β) :=
  m.filter (fun p => p.1 ≠ k)

/-- Per-connection PostgreSQL parser state: phase, prepared-statement map
(statement name to SQL text), portal map (portal name to statement name). -/
structure PostgresParser where
  phase : ConnPhase
  statements : List (List Nat × List Nat)
  portals : List (List Nat × List Nat)
deriving DecidableEq, Repr

/-- Fresh parser, as PostgresParser::new. -/
def PostgresParser.new : PostgresParser :=
  { phase := ConnPhase.AwaitingStartup, statements := [], portals := [] }

/-- Big-endian 32-bit value of four bytes. -/
def beU32 (a b c d : Nat) : Nat := ((a * 256 + b) * 256 + c) * 256 + d

/-- The SSL request code 80877103. -/
def sslRequestCode : Nat := 80877103

/-- The startup protocol version 3.0 code 196608. -/
def startupVersion30 : Nat := 196608

/-- The cancel request code 80877102. -/
def cancelRequestCode : Nat := 80877102

/-- Extract a null-terminated C string from a byte slice; `none` when no
null byte occurs. UTF-8 lossy decoding is modelled as the identity on
bytes. -/
def extractCString (l : List Nat) : Option (List Nat) :=
  if l.contains 0 then some (l.takeWhile fun b => b ≠ 0) else none

/-- Maximum SQL length kept by the parser. -/
def maxSqlLen : Nat := 4096

/-- Truncate SQL to maxSqlLen bytes with a trailing ellipsis. The UTF-8
char-boundary backoff of the source only matters for multi-byte characters,
which the byte model treats as single bytes. -/
def truncateSql (l : List Nat) : List Nat :=
  if l.length ≤ maxSqlLen then l else l.take maxSqlLen ++ [46, 46, 46]

/-- Parse the row count from a CommandComplete tag: the token after the last
space, parsed as u64 (digits with an optional leading plus sign, value below
2 to the 64); `none` when there is no space or parsing fails. -/
def parseCommandTagRows (tag : List Nat) : Option Nat :=
  if tag.contains 32 then
    let lastTok := (tag.reverse.takeWhile fun b => b ≠ 32).reverse
    let digits := match lastTok with
      | 43 :: t => t
      | _ => lastTok
    if digits ≠ [] && digits.all isDigitByte then
      let v := digits.foldl (fun acc d => acc * 10 + (d - 48)) 0
      if v < 2 ^ 64 then some v else none
    else none
  else none

/-- One step of ErrorResponse field parsing: a field-type byte, then a
null-terminated value; a null field-type byte terminates. Accumulates the
severity, code and message fields (types S, C, M). Fuel equal to the
payload length suffices since every iteration consumes the field-type
byte. -/
def parseErrAux :
    Nat → List Nat × List Nat × List Nat → List Nat →
      List Nat × List Nat × List Nat
  | 0, acc, _ => acc
  | _ + 1, acc, [] => acc
  | fuel + 1, acc, ft :: rest =>
    if ft == 0 then acc
    else
      let value := rest.takeWhile fun b => b ≠ 0
      let rest2 := rest.drop value.length
      let rest3 := match rest2 with
        | 0 :: t => t
        | _ => rest2
      let acc2 :=
        if ft == 83 then (value, acc.2.1, acc.2.2)
        else if ft == 67 then (acc.1, value, acc.2.2)
        else if ft == 77 then (acc.1, acc.2.1, value)
        else acc
      parseErrAux fuel acc2 rest3

/-- Parse ErrorResponse fields into (severity, code, message). -/
def parseErrorResponse (payload : List Nat) : List Nat × List Nat × List Nat :=
  parseErrAux payload.length ([], [], []) payload

/-- The placeholder SQL synthesized for an Execute whose portal or statement
lookup misses, modelling `format!("<execute portal={portal:?}>")`. Debug
escaping of exotic bytes inside the portal name is not modelled. -/
def executePlaceholder (portal : List Nat) : List Nat :=
  asciiBytes "<execute portal=" ++ 34 :: portal ++ [34, 62]

/-- Dispatch on one framed message: returns the event and the updated parser
state, mirroring PostgresParser::parse_message. -/
def parseMessage (p : PostgresParser) (tag : Nat) (payload : List Nat)
    (direction : Direction) : ProtoEvent × PostgresParser :=
  match direction with
  | Direction.Frontend =>
    if tag == 81 then
      -- Q: simple query
      let sql := truncateSql ((extractCString payload).getD [])
      (ProtoEvent.QueryStart sql, p)
    else if tag == 80 then
      -- P: Parse (extended query protocol)
      if payload.contains 0 then
        let stmtName := payload.takeWhile fun b => b ≠ 0
        let rest := payload.drop (stmtName.length + 1)
        let sql := truncateSql ((extractCString rest).getD [])
        (ProtoEvent.ParseDetected sql,
          { p with statements := ainsert p.statements stmtName sql })
      else (ProtoEvent.Unknown tag, p)
    else if tag == 66 then
      -- B: Bind
      if payload.contains 0 then
        let portal := payload.takeWhile fun b => b ≠ 0
        let rest := payload.drop (portal.length + 1)
        let stmt := (extractCString rest).getD []
        (ProtoEvent.Unknown tag,
          { p with portals := ainsert p.portals portal stmt })
      else (ProtoEvent.Unknown tag, p)
    else if tag == 69 then
      -- E: Execute
      let portal := (extractCString payload).getD []
      let sql :=
        match alookup p.portals portal with
        | some stmt =>
          match alookup p.statements stmt with
          | some s => s
          | none => executePlaceholder portal
        | none => executePlaceholder portal
      (ProtoEvent.QueryStart sql, p)
    else if tag == 67 then
      -- C: Close
      match payload with
      | [] => (ProtoEvent.Unknown tag, p)
      | closeType :: rest =>
        let name := (extractCString rest).getD []
        if closeType == 83 then
          (ProtoEvent.Unknown tag,
            { p with statements := aremove p.statements name })
        else if closeType == 80 then
          (ProtoEvent.Unknown tag,
            { p with portals := aremove p.portals name })
        else (ProtoEvent.Unknown tag, p)
    else if tag == 88 then
      -- X: Terminate
      (ProtoEvent.ConnectionClosed, p)
    else (ProtoEvent.Unknown tag, p)
  | Direction.Backend =>
    if tag == 67 then
      -- C: CommandComplete
      let tagStr := (extractCString payload).getD []
      (ProtoEvent.QueryComplete tagStr (parseCommandTagRows tagStr), p)
    else if tag == 69 then
      -- E: ErrorResponse
      let f := parseErrorResponse payload
      (ProtoEvent.QueryError f.1 f.2.1 f.2.2, p)
    else if tag == 90 then
      -- Z: ReadyForQuery
      let status :=
        match payload with
        | [] => TxStatus.Idle
        | 73 :: _ => TxStatus.Idle
        | 84 :: _ => TxStatus.InTransaction
        | 69 :: _ => TxStatus.Failed
        | _ :: _ => TxStatus.Idle
      let p2 :=
        if p.phase = ConnPhase.Authenticating then
          { p with phase := ConnPhase.Ready }
        else p
      (ProtoEvent.ConnectionReady status, p2)
    else (ProtoEvent.Unknown tag, p)

/-- Try to parse a startup message (no tag byte), as try_parse_startup. -/
def tryParseStartup (p : PostgresParser) (buf : List Nat) :
    Option (ProtoEvent × Nat) × PostgresParser :=
  if buf.length < 8 then (none, p)
  else
    let length := beU32 (buf.getD 0 0) (buf.getD 1 0) (buf.getD 2 0) (buf.getD 3 0)
    if ¬(8 ≤ length ∧ length ≤ 10000) then (some (ProtoEvent.Unknown 0, 1), p)
    else if buf.length < length then (none, p)
    else
      let version := beU32 (buf.getD 4 0) (buf.getD 5 0) (buf.getD 6 0) (buf.getD 7 0)
      if version = sslRequestCode then (some (ProtoEvent.Unknown 0, length), p)
      else if version = startupVersion30 then
        (some (ProtoEvent.Unknown 0, length),
          { p with phase := ConnPhase.Authenticating })
      else if version = cancelRequestCode then
        (some (ProtoEvent.Unknown 0, length), p)
      else (some (ProtoEvent.Unknown 0, length), p)

/-- Raw length field of a regular message: big-endian value of bytes 1..5. -/
def rawLenOf (buf : List Nat) : Nat :=
  beU32 (buf.getD 1 0) (buf.getD 2 0) (buf.getD 3 0) (buf.getD 4 0)

/-- Try to parse a regular message (tag byte plus self-including length),
as try_parse_regular: fewer than 5 bytes is incomplete; a length below 4 is
malformed (skip one byte, emit Unknown); an incomplete body is incomplete;
otherwise dispatch on the payload. -/
def tryParseRegular (p : PostgresParser) (buf : List Nat)
    (direction : Direction) : Option (ProtoEvent × Nat) × PostgresParser :=
  if buf.length < 5 then (none, p)
  else
    let rawLength := rawLenOf buf
    if rawLength < 4 then (some (ProtoEvent.Unknown (buf.getD 0 0), 1), p)
    else
      let totalLen := 1 + rawLength
      if buf.length < totalLen then (none, p)
      else
        let payload := (buf.drop 5).take (totalLen - 5)
        let r := parseMessage p (buf.getD 0 0) payload direction
        (some (r.1, totalLen), r.2)

/-- The phase dispatch of ProtocolParser::try_parse for PostgresParser. -/
def tryParse (p : PostgresParser) (buf : List Nat) (direction : Direction) :
    Option (ProtoEvent × Nat) × PostgresParser :=
  match p.phase with
  | ConnPhase.AwaitingStartup | ConnPhase.AwaitingStartupAfterSslReject =>
    if direction = Direction.Frontend then tryParseStartup p buf
    else tryParseRegular p buf direction
  | ConnPhase.Authenticating | ConnPhase.Ready =>
    tryParseRegular p buf direction

/-- The SSL-request interception hook, as handle_startup_intercept: on the
frontend direction, in a startup phase, with at least 8 bytes whose version
field is the SSL request code, reply with the single byte N and move to
AwaitingStartupAfterSslReject; otherwise do nothing. -/
def handleStartupIntercept (p : PostgresParser) (buf : List Nat)
    (direction : Direction) : Option (List Nat) × PostgresParser :=
  if direction ≠ Direction.Frontend then (none, p)
  else
    match p.phase with
    | ConnPhase.AwaitingStartup | ConnPhase.AwaitingStartupAfterSslReject =>
      if buf.length < 8 then (none, p)
      else
        let version := beU32 (buf.getD 4 0) (buf.getD 5 0) (buf.getD 6 0) (buf.getD 7 0)
        if version = sslRequestCode then
          (some [78], { p with phase := ConnPhase.AwaitingStartupAfterSslReject })
        else (none, p)
    | _ => (none, p)

/-! ### Reference encoders for concrete frames, mirroring the unit-test
helpers of protocol/postgres.rs. -/

/-- Big-endian encoding of a 32-bit value into four bytes. -/
def u32be (n : Nat) : List Nat :=
  [n / 2 ^ 24 % 256, n / 2 ^ 16 % 256, n / 2 ^ 8 % 256, n % 256]

/-- A simple Query frame: tag Q, self-including length, SQL, null byte. -/
def mkQueryMsg (sql : List Nat) : List Nat :=
  81 :: u32be (sql.length + 1 + 4) ++ sql ++ [0]

/-- A CommandComplete frame: tag C, length, command tag text, null byte. -/
def mkCommandComplete (tag : List Nat) : List Nat :=
  67 :: u32be (tag.length + 1 + 4) ++ tag ++ [0]

/-- A ReadyForQuery frame: tag Z, length 5, status byte. -/
def mkReadyForQuery (status : Nat) : List Nat :=
  90 :: u32be 5 ++ [status]

/-- A startup message of length 8 carrying only a version code. -/
def mkStartupMsg (version : Nat) : List Nat := u32be 8 ++ u32be version

/-- A parser in the Ready phase with empty maps, the state used by the
regular-message unit tests. -/
def readyParser : PostgresParser :=
  { phase := ConnPhase.Ready, statements := [], portals := [] }

/-! ### stats.rs

Monotonic instants and durations are modelled as natural numbers of
nanoseconds; process_event receives the current instant as an explicit
argument. The wall-clock timestamp carried by display events is pure
presentation data and is not modelled. -/

/-- One entry of the per-connection pending-query FIFO: SQL text and start
instant. -/
structure PendingQuery where
  sql : List Nat
  startedAt : Nat
deriving DecidableEq, Repr

/-- Per-connection correlation state. -/
structure ConnState where
  pendingQueries : List PendingQuery
  inTransaction : Bool
deriving DecidableEq, Repr

/-- Rolling aggregate for one fingerprint. -/
structure QueryAggregates where
  fingerprint : List Nat
  count : Nat
  totalDuration : Nat
  minDuration : Nat
  maxDuration : Nat
deriving DecidableEq, Repr

/-- The value of Duration::MAX in nanoseconds, the initial min_duration. -/
def durationMaxNs : Nat := (2 ^ 64 - 1) * 1000000000 + 999999999

/-- Variants of a display event. -/
inductive DisplayEventKind
  | Query (sql : List Nat) (duration : Nat) (rows : Option Nat)
  | Error (sql : Option (List Nat)) (duration : Option Nat)
      (code message : List Nat)
  | ConnectionOpened
  | ConnectionClosed
  | Warning (message : List Nat)
deriving DecidableEq, Repr

/-- Event after correlation, ready for display. -/
structure DisplayEvent where
  connId : Nat
  kind : DisplayEventKind
deriving DecidableEq, Repr

/-- The aggregator state of stats.rs. -/
structure StatsCollector where
  connections : List (Nat × ConnState)
  fingerprints : List (List Nat × QueryAggregates)
  latencyBuckets : List Nat
  totalQueries : Nat
  totalErrors : Nat
  activeConnections : Nat
  qpsWindow : List Nat
  firstQueryAt : Option Nat
  lastQueryAt : Option Nat
deriving DecidableEq, Repr

/-- Fresh collector, as StatsCollector::new. -/
def StatsCollector.new : StatsCollector :=
  { connections := []
    fingerprints := []
    latencyBuckets := [0, 0, 0, 0, 0, 0]
    totalQueries := 0
    totalErrors := 0
    activeConnections := 0
    qpsWindow := []
    firstQueryAt := none
    lastQueryAt := none }

/-- Latency bucket index for a duration in nanoseconds: below 1, 5, 10, 50,
100 milliseconds, then the overflow bucket. -/
def bucketIndex (duration : Nat) : Nat :=
  if duration < 1000000 then 0
  else if duration < 5000000 then 1
  else if duration < 10000000 then 2
  else if duration < 50000000 then 3
  else if duration < 100000000 then 4
  else 5

/-- Increment one latency bucket, as record_latency. -/
def recordLatency (buckets : List Nat) (duration : Nat) : List Nat :=
  buckets.set (bucketIndex duration) (buckets.getD (bucketIndex duration) 0 + 1)

/-- Update one aggregate with a new observation. -/
def aggUpdate (agg : QueryAggregates) (duration : Nat) : QueryAggregates :=
  { agg with
    count := agg.count + 1
    totalDuration := agg.totalDuration + duration
    minDuration := min agg.minDuration duration
    maxDuration := max agg.maxDuration duration }

/-- Update the fingerprint table with a completed query, as
record_fingerprint: aggregate creation is lazy with count 0, total 0,
min Duration::MAX, max 0. -/
def recordFingerprint (fps : List (List Nat × QueryAggregates))
    (sql : List Nat) (duration : Nat) : List (List Nat × QueryAggregates) :=
  let fp := fingerprint sql
  let base :=
    match alookup fps fp with
    | some agg => agg
    | none =>
      { fingerprint := fp
        count := 0
        totalDuration := 0
        minDuration := durationMaxNs
        maxDuration := 0 }
  ainsert fps fp (aggUpdate base duration)

/-- Severity bytes of ERROR. -/
def sevError : List Nat := asciiBytes "ERROR"

/-- Severity bytes of FATAL. -/
def sevFatal : List Nat := asciiBytes "FATAL"

/-- Warning text produced for a Parse message. -/
def parseWarning (sql : List Nat) : List Nat :=
  asciiBytes "Extended query protocol: " ++
    (if sql.length ≤ 80 then sql else sql.take 80 ++ [46, 46, 46])

/-- The pending-query FIFO of one connection, empty when the connection is
not registered. -/
def pendingOf (st : StatsCollector) (connId : Nat) : List PendingQuery :=
  match alookup st.connections connId with
  | some c => c.pendingQueries
  | none => []

/-- StatsCollector::process_event. `now` is the monotonic instant taken at
entry. Nat subtraction on instants matches saturating behaviour; the relay
only produces non-decreasing instants per connection. -/
def processEvent (st : StatsCollector) (connId : Nat) (event : ProtoEvent)
    (now : Nat) : Option DisplayEvent × StatsCollector :=
  match event with
  | ProtoEvent.QueryStart sql =>
    let c :=
      match alookup st.connections connId with
      | some c => c
      | none => { pendingQueries := [], inTransaction := false }
    let c2 :=
      { c with pendingQueries :=
          c.pendingQueries ++ [{ sql := sql, startedAt := now }] }
    (none, { st with connections := ainsert st.connections connId c2 })
  | ProtoEvent.ParseDetected sql =>
    (some { connId := connId, kind := DisplayEventKind.Warning (parseWarning sql) }, st)
  | ProtoEvent.QueryComplete _ rows =>
    match alookup st.connections connId with
    | none => (none, st)
    | some c =>
      match c.pendingQueries with
      | [] => (none, st)
      | pending :: restQ =>
        let duration := now - pending.startedAt
        (some { connId := connId,
                kind := DisplayEventKind.Query pending.sql duration rows },
          { st with
            connections := ainsert st.connections connId
              { c with pendingQueries := restQ }
            totalQueries := st.totalQueries + 1
            firstQueryAt := some ((st.firstQueryAt).getD now)
            lastQueryAt := some now
            latencyBuckets := recordLatency st.latencyBuckets duration
            fingerprints := recordFingerprint st.fingerprints pending.sql duration
            qpsWindow := st.qpsWindow ++ [now] })
  | ProtoEvent.QueryError severity code message =>
    let st1 := { st with totalErrors := st.totalErrors + 1 }
    let popped :
        Option (List Nat) × Option Nat × StatsCollector :=
      match alookup st1.connections connId with
      | none => (none, none, st1)
      | some c =>
        match c.pendingQueries with
        | [] => (none, none, st1)
        | pending :: restQ =>
          (some pending.sql, some (now - pending.startedAt),
            { st1 with connections :=
                ainsert st1.connections connId { c with pendingQueries := restQ } })
    if severity = sevError ∨ severity = sevFatal then
      (some { connId := connId,
              kind := DisplayEventKind.Error popped.1 popped.2.1 code message },
        popped.2.2)
    else (none, popped.2.2)
  | ProtoEvent.ConnectionReady status =>
    match alookup st.connections connId with
    | none => (none, st)
    | some c =>
      let c2 :=
        { c with
          inTransaction := status = TxStatus.InTransaction
          pendingQueries := [] }
      (none, { st with connections := ainsert st.connections connId c2 })
  | ProtoEvent.ConnectionClosed =>
    (some { connId := connId, kind := DisplayEventKind.ConnectionClosed },
      { st with
        connections := aremove st.connections connId
        activeConnections := st.activeConnections - 1 })
  | ProtoEvent.Unknown _ => (none, st)

/-- StatsCollector::connection_opened. -/
def connectionOpened (st : StatsCollector) (connId : Nat) :
    DisplayEvent × StatsCollector :=
  ({ connId := connId, kind := DisplayEventKind.ConnectionOpened },
    { st with
      activeConnections := st.activeConnections + 1
      connections := ainsert st.connections connId
        { pendingQueries := [], inTransaction := false } })

/-- StatsCollector::connection_dropped. -/
def connectionDropped (st : StatsCollector) (connId : Nat) :
    Option DisplayEvent × StatsCollector :=
  match alookup st.connections connId with
  | some _ =>
    (some { connId := connId, kind := DisplayEventKind.ConnectionClosed },
      { st with
        connections := aremove st.connections connId
        activeConnections := st.activeConnections - 1 })
  | none => (none, st)

/-- The descending total-duration comparison used by top_queries
(`b.total_duration.cmp(&a.total_duration)` as a sort-before relation). -/
def aggGE (a b : QueryAggregates) : Prop := b.totalDuration ≤ a.totalDuration

/-- Admissible results of StatsCollector::top_queries. The source sorts the
hash-map values with sort_unstable_by, whose order on ties (and the hash-map
iteration order feeding it) is unspecified, so top_queries is modelled as a
relation: the output is the first n elements of some permutation of the
aggregates that is sorted by descending total_duration. -/
def topQueriesRel (st : StatsCollector) (n : Nat)
    (out : List QueryAggregates) : Prop :=
  ∃ q, List.Perm (st.fingerprints.map Prod.snd) q ∧
    List.Pairwise aggGE q ∧ out = q.take n

/-! ### Event-history runs for the stats collector -/

/-- One call into the stats collector, as dispatched by run_raw_mode in
main.rs: a connection-opened notification, a connection-closed
notification, or a parser event with the instant at which it is
processed. -/
inductive StatsOp
  | opened (connId : Nat)
  | dropped (connId : Nat)
  | event (connId : Nat) (ev : ProtoEvent) (now : Nat)
deriving DecidableEq, Repr

/-- Display events emitted by one call, paired with the next state. -/
def statsStep (st : StatsCollector) (op : StatsOp) :
    List DisplayEvent × StatsCollector :=
  match op with
  | StatsOp.opened id =>
    let r := connectionOpened st id
    ([r.1], r.2)
  | StatsOp.dropped id =>
    let r := connectionDropped st id
    (r.1.toList, r.2)
  | StatsOp.event id ev now =>
    let r := processEvent st id ev now
    (r.1.toList, r.2)

/-- Run a sequence of calls, collecting all display events in order. -/
def runStats : StatsCollector → List StatsOp → StatsCollector × List DisplayEvent
  | st, [] => (st, [])
  | st, op :: rest =>
    let r := statsStep st op
    let rr := runStats r.2 rest
    (rr.1, r.1 ++ rr.2)

/-- Whether a display event is ConnectionOpened. -/
def isOpenedEv (e : DisplayEvent) : Bool :=
  match e.kind with
  | DisplayEventKind.ConnectionOpened => true
  | _ => false

/-- Whether a display event is ConnectionClosed. -/
def isClosedEv (e : DisplayEvent) : Bool :=
  match e.kind with
  | DisplayEventKind.ConnectionClosed => true
  | _ => false

/-- Count of ConnectionOpened display events in a list. -/
def openedCount (l : List DisplayEvent) : Nat := (l.filter isOpenedEv).length

/-- Count of ConnectionClosed display events in a list. -/
def closedCount (l : List DisplayEvent) : Nat := (l.filter isClosedEv).length

/-- Whether one call avoids a saturated decrement of active_connections: a
dropped call that finds a registered connection, and a ConnectionClosed
parser event (which decrements unconditionally), must run while
active_connections is positive; every other call is unrestricted. -/
def stepOkay (st : StatsCollector) (op : StatsOp) : Bool :=
  match op with
  | StatsOp.dropped id =>
    match alookup st.connections id with
    | some _ => decide (0 < st.activeConnections)
    | none => true
  | StatsOp.event _ ProtoEvent.ConnectionClosed _ =>
    decide (0 < st.activeConnections)
  | _ => true

/-- A run is saturation-free when every call satisfies stepOkay in the state
it executes in. -/
def goodRun : StatsCollector → List StatsOp → Bool
  | _, [] => true
  | st, op :: rest => stepOkay st op && goodRun (statsStep st op).2 rest

/-! ### Shared lemmas -/

theorem alookup_ainsert_self {α β : Type} [DecidableEq α]
    (m : List (α × β)) (k : α) (v : β) : alookup (ainsert m k v) k = some v := by
  simp [ainsert, alookup]

/-! ### Claim C2: the SSL-request interception hook -/

/-- The exact condition under which the interception hook fires: frontend
direction, a startup phase, at least 8 bytes buffered, and the version field
equal to the SSL request code. -/
def sslInterceptCond (p : PostgresParser) (buf : List Nat)
    (direction : Direction) : Prop :=
  direction = Direction.Frontend ∧
    (p.phase = ConnPhase.AwaitingStartup ∨
      p.phase = ConnPhase.AwaitingStartupAfterSslReject) ∧
    8 ≤ buf.length ∧
    beU32 (buf.getD 4 0) (buf.getD 5 0) (buf.getD 6 0) (buf.getD 7 0) =
      sslRequestCode

instance (p : PostgresParser) (buf : List Nat) (direction : Direction) :
    Decidable (sslInterceptCond p buf direction) := by
  unfold sslInterceptCond; infer_instance

/-- Claim C2: handle_startup_intercept returns the single byte N and moves
the phase to AwaitingStartupAfterSslReject exactly when the direction is
Frontend, the phase is AwaitingStartup or AwaitingStartupAfterSslReject, the
buffer holds at least 8 bytes, and bytes 4..8 decode big-endian to the SSL
request magic 80877103; in every other case it returns none and leaves the
parser state unchanged. -/
theorem ssl_intercept_characterization (p : PostgresParser) (buf : List Nat)
    (direction : Direction) :
    (handleStartupIntercept p buf direction =
        (some [78], { p with phase := ConnPhase.AwaitingStartupAfterSslReject })
      ↔ sslInterceptCond p buf direction) ∧
    (¬ sslInterceptCond p buf direction →
      handleStartupIntercept p buf direction = (none, p)) := by
  obtain ⟨ph, stmts, ports⟩ := p
  cases direction <;> cases ph <;>
    simp only [handleStartupIntercept, sslInterceptCond] <;>
    split_ifs <;> simp_all

/-- Witness for claim C2 at the concrete 8-byte SSLRequest frame. -/
theorem ssl_intercept_characterization_witness :
    handleStartupIntercept PostgresParser.new (mkStartupMsg sslRequestCode)
        Direction.Frontend =
      (some [78],
        { PostgresParser.new with
            phase := ConnPhase.AwaitingStartupAfterSslReject }) :=
  (ssl_intercept_characterization PostgresParser.new
    (mkStartupMsg sslRequestCode) Direction.Frontend).1.mpr (by decide)

/-! ### Claim C10: QueryComplete with no registered pending query -/

/-- Claim C10: a QueryComplete for a connection with no registered state or
an empty pending-query FIFO produces no display event and leaves the whole
collector state unchanged (total queries, latency buckets, fingerprint
aggregates, QPS window, first and last query timestamps included). -/
theorem query_complete_no_pending_noop (st : StatsCollector) (connId : Nat)
    (tag : List Nat) (rows : Option Nat) (now : Nat)
    (h : alookup st.connections connId = none ∨ pendingOf st connId = []) :
    processEvent st connId (ProtoEvent.QueryComplete tag rows) now =
      (none, st) := by
  simp only [processEvent]
  rcases hl : alookup st.connections connId with _ | c
  · rfl
  · rcases h with h | h
    · rw [hl] at h; cases h
    · have hq : c.pendingQueries = [] := by
        simpa [pendingOf, hl] using h
      simp [hq]

/-- Witness for claim C10 on the fresh collector. -/
theorem query_complete_no_pending_noop_witness :
    processEvent StatsCollector.new 1 (ProtoEvent.QueryComplete [] none) 0 =
      (none, StatsCollector.new) :=
  query_complete_no_pending_noop StatsCollector.new 1 [] none 0 (Or.inl rfl)

/-! ### Claim C3: QueryError handling -/

/-- Claim C3: on QueryError the collector pops the head of the pending-query
FIFO of that connection when it is non-empty, and it returns an Error
display event, carrying the popped SQL and elapsed time when a pending
query existed, exactly when the severity is ERROR or FATAL; any other
severity produces no display event. -/
theorem query_error_pop_and_severity (st : StatsCollector) (connId : Nat)
    (severity code message : List Nat) (now : Nat) :
    pendingOf
        (processEvent st connId
          (ProtoEvent.QueryError severity code message) now).2 connId =
      (pendingOf st connId).tail ∧
    (severity = sevError ∨ severity = sevFatal →
      (processEvent st connId
          (ProtoEvent.QueryError severity code message) now).1 =
        some { connId := connId,
               kind := DisplayEventKind.Error
                 ((pendingOf st connId).head?.map PendingQuery.sql)
                 ((pendingOf st connId).head?.map fun pq => now - pq.startedAt)
                 code message }) ∧
    (¬(severity = sevError ∨ severity = sevFatal) →
      (processEvent st connId
          (ProtoEvent.QueryError severity code message) now).1 = none) := by
  simp only [processEvent]
  rcases hl : alookup st.connections connId with _ | c
  · refine ⟨?_, ?_, ?_⟩
    · split_ifs <;> simp [pendingOf, hl]
    · intro h; simp [h, pendingOf, hl]
    · intro h; simp [h]
  · rcases hq : c.pendingQueries with _ | ⟨pending, restQ⟩
    · refine ⟨?_, ?_, ?_⟩
      · split_ifs <;> simp [pendingOf, hl, hq]
      · intro h; simp [h, pendingOf, hl, hq]
      · intro h; simp [h]
    · refine ⟨?_, ?_, ?_⟩
      · split_ifs <;> simp [pendingOf, hl, hq, alookup_ainsert_self]
      · intro h; simp [h, pendingOf, hl, hq]
      · intro h; simp [h]

/-- Witness for claim C3: an ERROR response with one pending query pops it
and produces an Error display event with its SQL and elapsed time. -/
theorem query_error_pop_and_severity_witness :
    (processEvent
        { StatsCollector.new with
            connections :=
              [(1, { pendingQueries := [{ sql := [97], startedAt := 2 }],
                     inTransaction := false })] }
        1 (ProtoEvent.QueryError sevError [] []) 5).1 =
      some { connId := 1,
             kind := DisplayEventKind.Error (some [97]) (some 3) [] [] } := by
  have h :=
    (query_error_pop_and_severity
      { StatsCollector.new with
          connections :=
            [(1, { pendingQueries := [{ sql := [97], startedAt := 2 }],
                   inTransaction := false })] }
      1 sevError [] [] 5).2.1 (Or.inl rfl)
  rw [h]; rfl

/-! ### Claim C1: framing of regular messages -/

/-- A well-formed regular message frame: one tag byte, a 4-byte big-endian
length of at least 4 that includes itself, and exactly the announced number
of bytes present. -/
def regularFrame (f : List Nat) : Prop :=
  4 ≤ rawLenOf f ∧ f.length = 1 + rawLenOf f

/-- The parser takes the regular-message path: backend direction, or a phase
past the startup handshake. -/
def regularPath (p : PostgresParser) (direction : Direction) : Prop :=
  direction = Direction.Backend ∨ p.phase = ConnPhase.Authenticating ∨
    p.phase = ConnPhase.Ready

theorem tryParse_eq_regular (p : PostgresParser) (buf : List Nat)
    (direction : Direction) (h : regularPath p direction) :
    tryParse p buf direction = tryParseRegular p buf direction := by
  rcases h with h | h | h
  · subst h
    simp only [tryParse]
    split <;> simp
  · simp [tryParse, h]
  · simp [tryParse, h]

theorem rawLenOf_append (f rest : List Nat) (h : 5 ≤ f.length) :
    rawLenOf (f ++ rest) = rawLenOf f := by
  unfold rawLenOf
  rw [List.getD_append _ _ _ _ (by omega), List.getD_append _ _ _ _ (by omega),
    List.getD_append _ _ _ _ (by omega), List.getD_append _ _ _ _ (by omega)]

theorem rawLenOf_take (f : List Nat) (k : Nat) (h : 5 ≤ k) :
    rawLenOf (f.take k) = rawLenOf f := by
  unfold rawLenOf
  simp only [List.getD_eq_getElem?_getD, List.getElem?_take]
  rw [if_pos (by omega), if_pos (by omega), if_pos (by omega), if_pos (by omega)]

theorem regularFrame_length (f : List Nat) (hf : regularFrame f) :
    5 ≤ f.length := by
  rcases hf with ⟨h4, hlen⟩; omega

theorem tryParseRegular_complete (p : PostgresParser) (direction : Direction)
    (f rest : List Nat) (hf : regularFrame f) :
    tryParseRegular p (f ++ rest) direction =
      (some ((parseMessage p (f.getD 0 0) (f.drop 5) direction).1, f.length),
        (parseMessage p (f.getD 0 0) (f.drop 5) direction).2) := by
  have h5 := regularFrame_length f hf
  rcases hf with ⟨h4, hlen⟩
  have hraw : rawLenOf (f ++ rest) = rawLenOf f := rawLenOf_append f rest h5
  unfold tryParseRegular
  rw [if_neg (by simp; omega), hraw, if_neg (by omega), if_neg (by simp; omega)]
  have hget0 : (f ++ rest).getD 0 0 = f.getD 0 0 :=
    List.getD_append _ _ _ _ (by omega)
  have hdrop : (f ++ rest).drop 5 = f.drop 5 ++ rest :=
    List.drop_append_of_le_length (by omega)
  have htake : (f.drop 5 ++ rest).take (1 + rawLenOf f - 5) = f.drop 5 :=
    List.take_left' (by simp; omega)
  rw [hget0, hdrop, htake, ← hlen]

theorem tryParseRegular_prefix (p : PostgresParser) (direction : Direction)
    (f : List Nat) (k : Nat) (hf : regularFrame f) (hk : k < f.length) :
    tryParseRegular p (f.take k) direction = (none, p) := by
  have h5 := regularFrame_length f hf
  rcases hf with ⟨h4, hlen⟩
  by_cases hk5 : k < 5
  · unfold tryParseRegular
    rw [if_pos (by simp; omega)]
  · have hraw : rawLenOf (f.take k) = rawLenOf f :=
      rawLenOf_take f k (by omega)
    unfold tryParseRegular
    rw [if_neg (by simp; omega), hraw, if_neg (by omega),
      if_pos (by simp; omega)]

theorem parseMessage_phase (p : PostgresParser) (tag : Nat)
    (payload : List Nat) (direction : Direction) :
    (parseMessage p tag payload direction).2.phase = p.phase ∨
      (parseMessage p tag payload direction).2.phase = ConnPhase.Ready := by
  cases direction <;> simp only [parseMessage] <;>
    (repeat' split) <;> simp

theorem regularPath_preserved (p : PostgresParser) (buf : List Nat)
    (direction : Direction) (h : regularPath p direction) :
    regularPath (tryParseRegular p buf direction).2 direction := by
  have hsnd : (tryParseRegular p buf direction).2 = p ∨
      (tryParseRegular p buf direction).2 =
        (parseMessage p (buf.getD 0 0)
          ((buf.drop 5).take (1 + rawLenOf buf - 5)) direction).2 := by
    simp only [tryParseRegular]
    split_ifs <;> simp
  rcases hsnd with hs | hs
  · rw [hs]; exact h
  · rw [hs]
    rcases h with h | h | h
    · exact Or.inl h
    · rcases parseMessage_phase p (buf.getD 0 0)
          ((buf.drop 5).take (1 + rawLenOf buf - 5)) direction with hp | hp
      · exact Or.inr (Or.inl (hp.trans h))
      · exact Or.inr (Or.inr hp)
    · rcases parseMessage_phase p (buf.getD 0 0)
          ((buf.drop 5).take (1 + rawLenOf buf - 5)) direction with hp | hp
      · exact Or.inr (Or.inr (hp.trans h))
      · exact Or.inr (Or.inr hp)

/-- Claim C1: on the regular-message path, a well-formed frame followed by
any further bytes parses to exactly one event with a consumed count equal to
the full frame length; every strict prefix of the frame yields no event and
leaves the parser state (phase, statement map, portal map) unchanged; and
two concatenated frames parse to their two events in order. -/
theorem try_parse_frame_roundtrip (p : PostgresParser) (direction : Direction)
    (f g rest : List Nat) (hpath : regularPath p direction)
    (hf : regularFrame f) (hg : regularFrame g) :
    (∃ ev p1, tryParse p (f ++ rest) direction = (some (ev, f.length), p1)) ∧
    (∀ k, k < f.length → tryParse p (f.take k) direction = (none, p)) ∧
    (∃ ev1 p1 ev2 p2,
      tryParse p f direction = (some (ev1, f.length), p1) ∧
      tryParse p (f ++ g) direction = (some (ev1, f.length), p1) ∧
      tryParse p1 ((f ++ g).drop f.length) direction =
        (some (ev2, g.length), p2)) := by
  have hreg : ∀ buf, tryParse p buf direction = tryParseRegular p buf direction :=
    fun buf => tryParse_eq_regular p buf direction hpath
  refine ⟨?_, ?_, ?_⟩
  · exact ⟨_, _, by rw [hreg, tryParseRegular_complete p direction f rest hf]⟩
  · intro k hk
    rw [hreg, tryParseRegular_prefix p direction f k hf hk]
  · have hc := tryParseRegular_complete p direction f g hf
    have hcf := tryParseRegular_complete p direction f [] hf
    rw [List.append_nil] at hcf
    have hpath1 :
        regularPath (parseMessage p (f.getD 0 0) (f.drop 5) direction).2
          direction := by
      have := regularPath_preserved p (f ++ g) direction hpath
      rwa [tryParseRegular_complete p direction f g hf] at this
    have hreg1 := tryParse_eq_regular _ g direction hpath1
    have hcg := tryParseRegular_complete
      (parseMessage p (f.getD 0 0) (f.drop 5) direction).2 direction g [] hg
    rw [List.append_nil] at hcg
    refine ⟨(parseMessage p (f.getD 0 0) (f.drop 5) direction).1,
      (parseMessage p (f.getD 0 0) (f.drop 5) direction).2,
      (parseMessage (parseMessage p (f.getD 0 0) (f.drop 5) direction).2
        (g.getD 0 0) (g.drop 5) direction).1,
      (parseMessage (parseMessage p (f.getD 0 0) (f.drop 5) direction).2
        (g.getD 0 0) (g.drop 5) direction).2,
      by rw [hreg, hcf], by rw [hreg, hc], ?_⟩
    rw [List.drop_left, hreg1, hcg]

/-- Witness for claim C1 with two concrete Query frames and trailing
bytes. -/
theorem try_parse_frame_roundtrip_witness :
    regularPath readyParser Direction.Frontend ∧
    regularFrame (mkQueryMsg (asciiBytes "SELECT 1")) ∧
    (∃ ev p1,
      tryParse readyParser
          (mkQueryMsg (asciiBytes "SELECT 1") ++ [81]) Direction.Frontend =
        (some (ev, (mkQueryMsg (asciiBytes "SELECT 1")).length), p1)) := by
  refine ⟨?_, ?_, ?_⟩
  · exact Or.inr (Or.inr rfl)
  · exact ⟨by decide, by decide⟩
  · exact (try_parse_frame_roundtrip readyParser Direction.Frontend
      (mkQueryMsg (asciiBytes "SELECT 1")) (mkQueryMsg (asciiBytes "SELECT 1"))
      [81] (Or.inr (Or.inr rfl)) ⟨by decide, by decide⟩
      ⟨by decide, by decide⟩).1

/-! ### Claim C8: connection accounting -/

theorem openedCount_append (a b : List DisplayEvent) :
    openedCount (a ++ b) = openedCount a + openedCount b := by
  simp [openedCount]

theorem closedCount_append (a b : List DisplayEvent) :
    closedCount (a ++ b) = closedCount a + closedCount b := by
  simp [closedCount]

theorem statsStep_balance (st : StatsCollector) (op : StatsOp)
    (hok : stepOkay st op = true) :
    (statsStep st op).2.activeConnections +
        closedCount (statsStep st op).1 =
      st.activeConnections + openedCount (statsStep st op).1 := by
  cases op with
  | opened id =>
    simp [statsStep, connectionOpened, openedCount, closedCount,
      isOpenedEv, isClosedEv]
  | dropped id =>
    simp only [statsStep, connectionDropped]
    rcases hl : alookup st.connections id with _ | c
    · simp [openedCount, closedCount]
    · simp only [stepOkay, hl] at hok
      have hpos : 0 < st.activeConnections := by simpa using hok
      simp [openedCount, closedCount, isOpenedEv, isClosedEv]
      omega
  | event id ev now =>
    cases ev with
    | QueryStart sql =>
      simp [statsStep, processEvent, openedCount, closedCount]
    | ParseDetected sql =>
      simp [statsStep, processEvent, openedCount, closedCount,
        isOpenedEv, isClosedEv]
    | QueryComplete tag rows =>
      simp only [statsStep, processEvent]
      rcases hl : alookup st.connections id with _ | c
      · simp [openedCount, closedCount]
      · rcases hq : c.pendingQueries with _ | ⟨pending, restQ⟩ <;>
          simp [hq, openedCount, closedCount, isOpenedEv, isClosedEv]
    | QueryError severity code message =>
      simp only [statsStep, processEvent]
      rcases hl : alookup st.connections id with _ | c
      · split_ifs <;>
          simp [hl, openedCount, closedCount, isOpenedEv, isClosedEv]
      · rcases hq : c.pendingQueries with _ | ⟨pending, restQ⟩ <;> split_ifs <;>
          simp [hl, hq, openedCount, closedCount, isOpenedEv, isClosedEv]
    | ConnectionReady status =>
      simp only [statsStep, processEvent]
      rcases hl : alookup st.connections id with _ | c <;>
        simp [hl, openedCount, closedCount]
    | ConnectionClosed =>
      simp only [stepOkay, decide_eq_true_eq] at hok
      simp [statsStep, processEvent, openedCount, closedCount,
        isOpenedEv, isClosedEv]
      omega
    | Unknown tag =>
      simp [statsStep, processEvent, openedCount, closedCount]

theorem runStats_balance (ops : List StatsOp) (st : StatsCollector)
    (h : goodRun st ops = true) :
    (runStats st ops).1.activeConnections +
        closedCount (runStats st ops).2 =
      st.activeConnections + openedCount (runStats st ops).2 := by
  induction ops generalizing st with
  | nil => simp [runStats, openedCount, closedCount]
  | cons op rest ih =>
    simp only [goodRun, Bool.and_eq_true] at h
    have hstep := statsStep_balance st op h.1
    have hrest := ih (statsStep st op).2 h.2
    simp only [runStats]
    rw [openedCount_append, closedCount_append]
    omega

/-- Claim C8, amended: after any sequence of connection_opened,
connection_dropped and process_event calls on a fresh collector in which
every decrement of active_connections happens while the counter is positive
(no saturation), active_connections equals the number of ConnectionOpened
display events produced minus the number of ConnectionClosed display events
produced. Without that restriction the code emits a ConnectionClosed event
and saturates the decrement at zero even for an unregistered connection
id. -/
theorem active_connections_balance (ops : List StatsOp)
    (h : goodRun StatsCollector.new ops = true) :
    ((runStats StatsCollector.new ops).1.activeConnections : Int) =
      (openedCount (runStats StatsCollector.new ops).2 : Int) -
        (closedCount (runStats StatsCollector.new ops).2 : Int) := by
  have hbal := runStats_balance ops StatsCollector.new h
  have h0 : StatsCollector.new.activeConnections = 0 := rfl
  rw [h0] at hbal
  omega

/-- Counterexample to claim C8 as stated: a single ConnectionClosed parser
event processed on a fresh collector emits one ConnectionClosed display
event while active_connections saturates at zero, so the claimed equality
fails (zero is not zero minus one). -/
theorem active_connections_balance_counterexample :
    ¬ (((runStats StatsCollector.new
            [StatsOp.event 1 ProtoEvent.ConnectionClosed 0]).1.activeConnections :
          Int) =
        (openedCount (runStats StatsCollector.new
            [StatsOp.event 1 ProtoEvent.ConnectionClosed 0]).2 : Int) -
          (closedCount (runStats StatsCollector.new
              [StatsOp.event 1 ProtoEvent.ConnectionClosed 0]).2 : Int)) := by
  decide

/-- Witness for the amended claim C8 on a concrete open-drop history. -/
theorem active_connections_balance_witness :
    ((runStats StatsCollector.new
          [StatsOp.opened 1, StatsOp.opened 2, StatsOp.dropped 1]).1.activeConnections :
        Int) =
      (openedCount (runStats StatsCollector.new
          [StatsOp.opened 1, StatsOp.opened 2, StatsOp.dropped 1]).2 : Int) -
        (closedCount (runStats StatsCollector.new
            [StatsOp.opened 1, StatsOp.opened 2, StatsOp.dropped 1]).2 : Int) :=
  active_connections_balance
    [StatsOp.opened 1, StatsOp.opened 2, StatsOp.dropped 1] (by decide)

/-! ### Claim C9: top_queries -/

instance : DecidableRel aggGE := by
  unfold aggGE; infer_instance

/-- Boolean form of the top_queries comparison, used to build one admissible
sorted permutation. -/
def aggLE (a b : QueryAggregates) : Bool :=
  decide (b.totalDuration ≤ a.totalDuration)

/-- Claim C9, amended: top_queries always admits a result, and every
admissible result is sorted by descending total_duration, has length n
truncated to the number of aggregates, consists of aggregates from the
table, and dominates every aggregate left out of the truncation. The order
of ties is not specified (the source uses an unstable sort with no secondary
key). -/
theorem top_queries_spec (st : StatsCollector) (n : Nat) :
    (∃ out, topQueriesRel st n out) ∧
    (∀ out, topQueriesRel st n out →
      List.Pairwise aggGE out ∧
      out.length = min n st.fingerprints.length ∧
      (∀ x ∈ out, x ∈ st.fingerprints.map Prod.snd) ∧
      (∃ q, List.Perm (st.fingerprints.map Prod.snd) q ∧ out = q.take n ∧
        ∀ x ∈ out, ∀ y ∈ q.drop n, aggGE x y)) := by
  constructor
  · refine ⟨((st.fingerprints.map Prod.snd).mergeSort aggLE).take n,
      (st.fingerprints.map Prod.snd).mergeSort aggLE,
      (List.mergeSort_perm _ aggLE).symm, ?_, rfl⟩
    have hs := @List.sorted_mergeSort QueryAggregates aggLE
      (fun a b c hab hbc => by
        simp only [aggLE, decide_eq_true_eq] at *
        exact le_trans hbc hab)
      (fun a b => by
        simp only [aggLE]
        rcases Nat.le_total b.totalDuration a.totalDuration with h | h <;>
          simp [h])
      (st.fingerprints.map Prod.snd)
    exact hs.imp (fun h => by simpa [aggLE] using h)
  · rintro out ⟨q, hperm, hsort, hout⟩
    have hsub : List.Sublist (q.take n) q := List.take_sublist n q
    refine ⟨?_, ?_, ?_, q, hperm, hout, ?_⟩
    · exact hout ▸ hsort.sublist hsub
    · rw [hout, List.length_take, hperm.length_eq.symm, List.length_map]
    · intro x hx
      rw [hout] at hx
      exact hperm.mem_iff.mpr (hsub.subset hx)
    · intro x hx y hy
      rw [hout] at hx
      have hq : q.take n ++ q.drop n = q := List.take_append_drop n q
      rw [← hq] at hsort
      exact (List.pairwise_append.mp hsort).2.2 x hx y hy

/-- Two aggregates with equal total_duration and different fingerprints. -/
def aggA : QueryAggregates :=
  { fingerprint := [97], count := 1, totalDuration := 5, minDuration := 5,
    maxDuration := 5 }

/-- Second aggregate of the tie, differing from aggA only in the
fingerprint. -/
def aggB : QueryAggregates :=
  { fingerprint := [98], count := 1, totalDuration := 5, minDuration := 5,
    maxDuration := 5 }

/-- A collector holding exactly the two tied aggregates. -/
def tieCollector : StatsCollector :=
  { StatsCollector.new with fingerprints := [([97], aggA), ([98], aggB)] }

/-- Counterexample to claim C9 as stated: with two distinct aggregates tied
on total_duration, both orders are admissible results of top_queries, so the
unstable single-key sort of the code does not determine the tie order that a
stable secondary key would. -/
theorem top_queries_tie_counterexample :
    topQueriesRel tieCollector 2 [aggA, aggB] ∧
    topQueriesRel tieCollector 2 [aggB, aggA] ∧ aggA ≠ aggB := by
  refine ⟨⟨[aggA, aggB], ?_, ?_, rfl⟩, ⟨[aggB, aggA], ?_, ?_, rfl⟩, by decide⟩
  · decide
  · decide
  · decide
  · decide

/-- Witness for the amended claim C9 on the concrete tied collector. -/
theorem top_queries_spec_witness :
    topQueriesRel tieCollector 2 [aggA, aggB] ∧
    List.Pairwise aggGE [aggA, aggB] := by
  have h : topQueriesRel tieCollector 2 [aggA, aggB] :=
    ⟨[aggA, aggB], by decide, by decide, rfl⟩
  exact ⟨h, ((top_queries_spec tieCollector 2).2 [aggA, aggB] h).1⟩

/-! ### Claim C4: dollar parameter placeholders -/

/-- Claim C4 evidence: a `$` followed by digits is not emitted verbatim. The
dollar-quote guard requires the next byte to be a dollar, letter or
underscore, so `$` before a digit falls to the catch-all arm, and the digit
that follows is then treated as a numeric literal because `$` is not an
identifier byte: the code turns `$1` into `$$N` (lowercased `$$n`) instead
of keeping `$1`. -/
theorem dollar_param_not_verbatim :
    fingerprint (asciiBytes "INSERT INTO t VALUES ($1)") =
      asciiBytes "insert into t values ($$n)" ∧
    ¬ (asciiBytes "$1" <:+:
        fingerprint (asciiBytes "INSERT INTO t VALUES ($1)")) := by
  decide

/-! ### Claim C6: numeric literals and identifiers with digits -/

theorem consumeNum_snd (p : Nat) (l : List Nat) :
    (consumeNum p l).2 = l.dropWhile numByte := by
  induction l generalizing p with
  | nil => rfl
  | cons c t ih =>
    simp only [consumeNum, List.dropWhile]
    rcases h : numByte c with _ | _
    · simp [h]
    · simp [h, ih]

/-- Counterexample to claim C6 as stated: the scanner consumes every digit
and every dot of a numeric literal, not at most one decimal point, so
`1.2.3` collapses into a single `$n` rather than the `$n.$n` the claim
predicts. -/
theorem numeric_literal_dots_counterexample :
    fingerprint (asciiBytes "SELECT 1.2.3") = asciiBytes "select $n" ∧
    asciiBytes "select $n" ≠ asciiBytes "select $n.$n" := by
  decide

/-- Claim C6, amended: a digit not preceded by an identifier byte begins a
numeric literal that is replaced by `$N`, consuming the whole run of digits
and dots (any number of decimal points, not at most one); a digit preceded
by a letter, digit or underscore is part of an identifier and is emitted
verbatim; and the concrete example keeps `table1` and `col2` while the
literal 5 becomes `$n`. -/
theorem numeric_literal_scan (prev : Option Nat) (d : Nat) (rest : List Nat)
    (fuel : Nat) (hd : isDigitByte d = true) :
    (prevIsIdent prev = false →
      scanAux (fuel + 1) prev (d :: rest) =
        36 :: 78 :: scanAux fuel (some (consumeNum d rest).1)
          ((d :: rest).dropWhile numByte)) ∧
    (prevIsIdent prev = true →
      scanAux (fuel + 1) prev (d :: rest) = d :: scanAux fuel (some d) rest) ∧
    fingerprint (asciiBytes "SELECT * FROM table1 WHERE col2 = 5") =
      asciiBytes "select * from table1 where col2 = $n" := by
  have hb : 48 ≤ d ∧ d ≤ 57 := by
    simpa [isDigitByte] using hd
  have h39 : (d == 39) = false := by
    simp only [beq_eq_false_iff_ne]; omega
  have h36 : (d == 36) = false := by
    simp only [beq_eq_false_iff_ne]; omega
  have hdw : (d :: rest).dropWhile numByte = rest.dropWhile numByte := by
    simp [List.dropWhile, numByte, hd]
  refine ⟨?_, ?_, by decide⟩
  · intro hp
    simp [scanAux, h39, h36, hd, hp, hdw, consumeNum_snd]
  · intro hp
    simp [scanAux, h39, h36, hd, hp]

/-- Witness for the amended claim C6 at the single digit 1 with no
preceding byte. -/
theorem numeric_literal_scan_witness :
    scanAux 2 none (49 :: []) =
      36 :: 78 :: scanAux 1 (some (consumeNum 49 []).1)
        ((49 :: []).dropWhile numByte) :=
  (numeric_literal_scan none 49 [] 1 (by decide)).1 (by decide)

/-! ### Claim C5: IN-list collapsing and word boundaries -/

/-- Counterexample to claim C5 as stated: the word-boundary test of
normalize_in_lists only rejects a preceding letter or digit, not a
preceding underscore, so `a_IN (1, 2)` still collapses where the claim says
the underscore should block it. -/
theorem in_list_boundary_counterexample :
    fingerprint (asciiBytes "SELECT a_IN (1, 2)") =
      asciiBytes "select a_in ($...)" ∧
    asciiBytes "select a_in ($...)" ≠ asciiBytes "select a_in ($n, $n)" := by
  decide

/-- Claim C5, amended: a run of placeholders separated by commas and spaces
inside `IN ( ... )` collapses to `IN ($...)` exactly when the
case-insensitive IN is not preceded by a letter or digit (an underscore
does not block the collapse); with a preceding letter or digit one byte is
copied and no collapse happens; and the concrete spec example collapses as
stated. -/
theorem in_list_collapse_boundary (fuel : Nat) (prev : Option Nat)
    (c1 c2 c3 : Nat) (r3 rem : List Nat)
    (hIN : toUpperByte c1 = 73 ∧ toUpperByte c2 = 78) :
    ((∀ b, prev = some b → isAlphaByte b = false ∧ isDigitByte b = false) →
      inListAfterIN (c3 :: r3) = some rem →
      normAux (fuel + 1) prev (c1 :: c2 :: c3 :: r3) =
        c1 :: c2 :: 32 :: 40 :: 36 :: 46 :: 46 :: 46 :: 41 ::
          normAux fuel (some 41) rem) ∧
    (∀ b, prev = some b → (isAlphaByte b = true ∨ isDigitByte b = true) →
      normAux (fuel + 1) prev (c1 :: c2 :: c3 :: r3) =
        c1 :: normAux fuel (some c1) (c2 :: c3 :: r3)) ∧
    fingerprint (asciiBytes "SELECT * FROM t WHERE id IN (1, 2, 3)") =
      asciiBytes "select * from t where id in ($...)" ∧
    fingerprint (asciiBytes "SELECT a_IN (1, 2)") =
      asciiBytes "select a_in ($...)" := by
  refine ⟨?_, ?_, by decide, by decide⟩
  · intro hb hrem
    have hpa : prevIsAlnum prev = false := by
      rcases prev with _ | b
      · rfl
      · have := hb b rfl
        simp [prevIsAlnum, isAlnumByte, this.1, this.2]
    simp [normAux, hIN.1, hIN.2, hpa, hrem]
  · intro b hbp hb
    have hpa : prevIsAlnum prev = true := by
      rcases hb with hb | hb <;> simp [hbp, prevIsAlnum, isAlnumByte, hb]
    simp [normAux, hpa]

/-- Witness for the amended claim C5: underscore before IN does not block
the collapse on a minimal concrete list. -/
theorem in_list_collapse_boundary_witness :
    normAux 10 (some 95) (73 :: 78 :: 40 :: [36, 78, 41]) =
      73 :: 78 :: 32 :: 40 :: 36 :: 46 :: 46 :: 46 :: 41 ::
        normAux 9 (some 41) [] :=
  (in_list_collapse_boundary 9 (some 95) 73 78 40 [36, 78, 41] []
      ⟨rfl, rfl⟩).1
    (fun b hb => by cases Option.some.inj hb; exact ⟨rfl, rfl⟩) (by decide)

/-! ### Claim C7: idempotence of fingerprint on literal-free input -/

/-- Literal-free byte lists, tracking the scanner conditions byte by byte:
no single quote (which would open a string literal), no digit that the
scanner would treat as a numeric literal (one not preceded by an identifier
byte), and no dollar sign that opens a dollar-quoted literal (guard byte
plus a closing tag). `prev` is the preceding byte, `none` at the start. -/
def cleanAux : Option Nat → List Nat → Bool
  | _, [] => true
  | prev, c :: rest =>
    !(c == 39) && !(isDigitByte c && !prevIsIdent prev) &&
      !(c == 36 && dollarGuard rest && (findTagLen rest).isSome) &&
      cleanAux (some c) rest

/-- A SQL byte string contains no literals: no single-quoted string, no
dollar-quoted string, and no numeric literal, in the exact sense the
scanner of fingerprint.rs detects them. -/
def noLiterals (l : List Nat) : Prop := cleanAux none l = true

instance (l : List Nat) : Decidable (noLiterals l) := by
  unfold noLiterals; infer_instance

theorem scanAux_id (l : List Nat) : ∀ (fuel : Nat) (prev : Option Nat),
    l.length ≤ fuel → cleanAux prev l = true → scanAux fuel prev l = l := by
  induction l with
  | nil => intro fuel prev _ _; cases fuel <;> rfl
  | cons c rest ih =>
    intro fuel prev hfuel h
    cases fuel with
    | zero => simp at hfuel
    | succ fuel =>
      simp only [cleanAux, Bool.and_eq_true, Bool.not_eq_true'] at h
      obtain ⟨⟨⟨h39, hdig⟩, hdol⟩, hrest⟩ := h
      have hlen : rest.length ≤ fuel := by
        simp only [List.length_cons] at hfuel; omega
      by_cases h36g : (c == 36 && dollarGuard rest) = true
      · have hc36 : c = 36 := by
          have h2 := h36g
          simp only [Bool.and_eq_true, beq_iff_eq] at h2
          exact h2.1
        subst hc36
        have htag : findTagLen rest = none := by
          rcases hft : findTagLen rest with _ | v
          · rfl
          · rw [hft, h36g] at hdol
            simp at hdol
        simp only [scanAux, h39, Bool.false_eq_true, if_false, h36g, if_true,
          htag]
        rw [ih fuel (some 36) hlen hrest]
      · by_cases hd : isDigitByte c = true
        · have hpi : prevIsIdent prev = true := by
            rw [hd] at hdig
            simpa using hdig
          simp only [scanAux, h39, Bool.false_eq_true, if_false, h36g, hd,
            if_true, hpi]
          rw [ih fuel (some c) hlen hrest]
        · simp only [scanAux, h39, Bool.false_eq_true, if_false, h36g,
            hd, if_false]
          rw [ih fuel (some c) hlen hrest]

theorem normAux_nil (fuel : Nat) (prev : Option Nat) :
    normAux fuel prev [] = [] := by
  cases fuel <;> rfl

theorem findTagLen_cons_ident (c : Nat) (l : List Nat)
    (hc : isIdentByte c = true) :
    (findTagLen (c :: l)).isSome = (findTagLen l).isSome := by
  simp only [findTagLen, List.takeWhile_cons, hc, if_true, List.length_cons,
    List.drop_succ_cons]
  rcases l.drop (l.takeWhile fun b => isIdentByte b).length with _ | ⟨d, t⟩
  · rfl
  · by_cases hd : (d == 36) = true <;> simp [hd]

theorem findTagLen_cons_other (c : Nat) (l : List Nat)
    (hc : isIdentByte c = false) (hc36 : c ≠ 36) :
    findTagLen (c :: l) = none := by
  simp only [findTagLen, List.takeWhile_cons, hc, Bool.false_eq_true,
    if_false, List.length_nil, List.drop_zero]
  simp [hc36]

theorem findTagLen_dollar (l : List Nat) : findTagLen (36 :: l) = some 2 := by
  simp [findTagLen, List.takeWhile_cons, isIdentByte, isAlnumByte,
    isAlphaByte, isUpperByte, isLowerByte, isDigitByte]

theorem findTagLen_cons_of_none (c : Nat) (t : List Nat)
    (hc : isIdentByte c = true) (h : findTagLen t = none) :
    findTagLen (c :: t) = none := by
  have hs := findTagLen_cons_ident c t hc
  rw [h] at hs
  simp only [Option.isSome_none] at hs
  exact Option.not_isSome_iff_eq_none.mp (by simp [hs])

theorem ident_of_upper_letter (c v : Nat) (h : toUpperByte c = v)
    (h1 : 65 ≤ v) (h2 : v ≤ 90) : isIdentByte c = true := by
  unfold toUpperByte at h
  split_ifs at h with hl
  · simp [isIdentByte, isAlnumByte, isAlphaByte, hl]
  · subst h
    simp only [isLowerByte, Bool.and_eq_false_iff] at hl
    simp [isIdentByte, isAlnumByte, isAlphaByte, isUpperByte]
    omega

theorem normAux_head (fuel : Nat) (prev : Option Nat) (c : Nat)
    (r : List Nat) : ∃ t, normAux (fuel + 1) prev (c :: r) = c :: t := by
  cases r with
  | nil => exact ⟨_, rfl⟩
  | cons c2 r2 =>
    cases r2 with
    | nil => exact ⟨_, rfl⟩
    | cons c3 r3 =>
      simp only [normAux]
      split
      · split
        · exact ⟨_, rfl⟩
        · exact ⟨_, rfl⟩
      · exact ⟨_, rfl⟩

theorem normAux_noTag (fuel : Nat) : ∀ (prev : Option Nat) (l : List Nat),
    l.length ≤ fuel → findTagLen l = none →
    findTagLen (normAux fuel prev l) = none := by
  induction fuel with
  | zero =>
    intro prev l hlen h
    have : l = [] := List.length_eq_zero.mp (Nat.le_zero.mp hlen)
    subst this
    rfl
  | succ fuel ih =>
    intro prev l hlen h
    rcases l with _ | ⟨c, rest⟩
    · rfl
    · by_cases hident : isIdentByte c = true
      · have hrest : findTagLen rest = none := by
          have hs := findTagLen_cons_ident c rest hident
          rw [h] at hs
          simp only [Option.isSome_none] at hs
          exact Option.not_isSome_iff_eq_none.mp (by simp [← hs])
        rcases rest with _ | ⟨c2, rest2⟩
        · simp only [normAux, normAux_nil]
          exact findTagLen_cons_of_none c [] hident rfl
        · rcases rest2 with _ | ⟨c3, r3⟩
          · simp only [normAux]
            exact findTagLen_cons_of_none c _ hident
              (ih (some c) [c2] (by simp only [List.length_cons] at hlen ⊢; omega)
                hrest)
          · simp only [normAux]
            split
            · rename_i hcond
              split
              · rename_i rem hrem
                have hup : toUpperByte c2 = 78 := by
                  simp only [Bool.and_eq_true, beq_iff_eq] at hcond
                  exact hcond.1.2
                refine findTagLen_cons_of_none c _ hident ?_
                refine findTagLen_cons_of_none c2 _
                  (ident_of_upper_letter c2 78 hup (by omega) (by omega)) ?_
                exact findTagLen_cons_other 32 _ (by decide) (by decide)
              · exact findTagLen_cons_of_none c _ hident
                  (ih (some c) (c2 :: c3 :: r3)
                    (by simp only [List.length_cons] at hlen ⊢; omega) hrest)
            · exact findTagLen_cons_of_none c _ hident
                (ih (some c) (c2 :: c3 :: r3)
                  (by simp only [List.length_cons] at hlen ⊢; omega) hrest)
      · by_cases hc36 : c = 36
        · subst hc36
          rw [findTagLen_dollar] at h
          cases h
        · obtain ⟨t, ht⟩ := normAux_head fuel prev c rest
          rw [ht]
          exact findTagLen_cons_other c t (by simpa using hident) hc36

/-- The byte just before the given suffix position: the last byte of the
consumed part, or the initial prev when nothing was consumed. -/
def prevAfter : Option Nat → List Nat → Option Nat
  | prev, [] => prev
  | _, c :: t => prevAfter (some c) t

theorem cleanAux_tail (prev : Option Nat) (c : Nat) (rest : List Nat)
    (h : cleanAux prev (c :: rest) = true) : cleanAux (some c) rest = true := by
  simp only [cleanAux, Bool.and_eq_true] at h
  exact h.2

theorem cleanAux_append (a : List Nat) : ∀ (prev : Option Nat) (b : List Nat),
    cleanAux prev (a ++ b) = true → cleanAux (prevAfter prev a) b = true := by
  induction a with
  | nil => intro prev b h; exact h
  | cons c t ih =>
    intro prev b h
    exact ih (some c) b (cleanAux_tail prev c (t ++ b) h)

theorem prevAfter_append_last (prev : Option Nat) (a : List Nat) (x : Nat) :
    prevAfter prev (a ++ [x]) = some x := by
  induction a generalizing prev with
  | nil => rfl
  | cons c t ih => exact ih (some c)

theorem skipWs_split (l : List Nat) : ∃ w, l = w ++ skipWs l := by
  induction l with
  | nil => exact ⟨[], rfl⟩
  | cons c t ih =>
    by_cases h : isSpaceByte c = true
    · obtain ⟨w, hw⟩ := ih
      exact ⟨c :: w, by
        simp only [skipWs, h, if_true, List.cons_append]
        rw [← hw]⟩
    · exact ⟨[], by simp only [skipWs, h, if_false]; rfl⟩

theorem placeholdersScan_split_bounded : ∀ (n : Nat) (t : List Nat),
    t.length ≤ n → ∀ (hasP : Bool) (rem : List Nat),
    placeholdersScan hasP t = some rem → ∃ u, t = u ++ 41 :: rem := by
  intro n
  induction n with
  | zero =>
    intro t hlen hasP rem h
    have : t = [] := List.length_eq_zero.mp (Nat.le_zero.mp hlen)
    subst this
    cases h
  | succ n ih =>
    intro t hlen hasP rem h
    rcases t with _ | ⟨c, t'⟩
    · cases h
    · rw [placeholdersScan.eq_def] at h
      simp only [] at h
      by_cases h41 : (c == 41) = true
      · rw [if_pos h41] at h
        cases hasP with
        | false => rw [if_neg Bool.false_ne_true] at h; cases h
        | true =>
          have hc : c = 41 := by simpa using h41
          have ht : t' = rem := by simpa using h
          exact ⟨[], by rw [hc, ht]; rfl⟩
      · rw [if_neg h41] at h
        by_cases h36 : (c == 36) = true
        · rw [if_pos h36] at h
          rcases t' with _ | ⟨d, t2⟩
          · simp only [] at h; cases h
          · simp only [] at h
            by_cases hd : (d == 78 || d == 83) = true
            · rw [if_pos hd] at h
              obtain ⟨u, hu⟩ := ih t2
                (by simp only [List.length_cons] at hlen; omega) true rem h
              exact ⟨c :: d :: u, by rw [hu]; rfl⟩
            · rw [if_neg hd] at h; cases h
        · rw [if_neg h36] at h
          by_cases hcs : (c == 44 || c == 32) = true
          · rw [if_pos hcs] at h
            obtain ⟨u, hu⟩ := ih t'
              (by simp only [List.length_cons] at hlen; omega) hasP rem h
            exact ⟨c :: u, by rw [hu]; rfl⟩
          · rw [if_neg hcs] at h; cases h

theorem placeholdersScan_split (t : List Nat) (hasP : Bool) (rem : List Nat)
    (h : placeholdersScan hasP t = some rem) : ∃ u, t = u ++ 41 :: rem :=
  placeholdersScan_split_bounded t.length t le_rfl hasP rem h

theorem inListAfterIN_split (x rem : List Nat)
    (h : inListAfterIN x = some rem) : ∃ v, x = v ++ 41 :: rem := by
  simp only [inListAfterIN] at h
  split at h
  · rename_i t heq
    obtain ⟨u, hu⟩ := placeholdersScan_split t false rem h
    obtain ⟨w, hw⟩ := skipWs_split x
    refine ⟨w ++ 40 :: u, ?_⟩
    rw [hw, heq, hu]
    simp
  · cases h

theorem cleanAux_cons_intro (prev : Option Nat) (c : Nat) (rest : List Nat)
    (h39 : (c == 39) = false)
    (hdig : (isDigitByte c && !prevIsIdent prev) = false)
    (hdol : (c == 36 && dollarGuard rest && (findTagLen rest).isSome) = false)
    (hrest : cleanAux (some c) rest = true) :
    cleanAux prev (c :: rest) = true := by
  simp only [cleanAux, Bool.and_eq_true, Bool.not_eq_true']
  exact ⟨⟨⟨h39, hdig⟩, hdol⟩, hrest⟩

theorem upper_letter_byte_facts (c v : Nat) (h : toUpperByte c = v)
    (h1 : 65 ≤ v) (h2 : v ≤ 90) :
    (c == 39) = false ∧ isDigitByte c = false ∧ (c == 36) = false := by
  unfold toUpperByte at h
  split_ifs at h with hl
  · simp only [isLowerByte, Bool.and_eq_true, decide_eq_true_eq] at hl
    refine ⟨by simp only [beq_eq_false_iff_ne]; omega, ?_,
      by simp only [beq_eq_false_iff_ne]; omega⟩
    simp only [isDigitByte, Bool.and_eq_false_iff, decide_eq_false_iff_not]
    omega
  · subst h
    refine ⟨by simp only [beq_eq_false_iff_ne]; omega, ?_,
      by simp only [beq_eq_false_iff_ne]; omega⟩
    simp only [isDigitByte, Bool.and_eq_false_iff, decide_eq_false_iff_not]
    omega

theorem cleanAux_cons_normAux (fuel : Nat) (prev : Option Nat) (c : Nat)
    (rest : List Nat) (hlen : rest.length ≤ fuel)
    (h39 : (c == 39) = false)
    (hdig : (isDigitByte c && !prevIsIdent prev) = false)
    (hdol : (c == 36 && dollarGuard rest && (findTagLen rest).isSome) = false)
    (hout : cleanAux (some c) (normAux fuel (some c) rest) = true) :
    cleanAux prev (c :: normAux fuel (some c) rest) = true := by
  refine cleanAux_cons_intro prev c _ h39 hdig ?_ hout
  by_cases hc36 : (c == 36) = true
  · rcases rest with _ | ⟨d, rest'⟩
    · rw [normAux_nil]
      simp [dollarGuard]
    · by_cases hg : dollarGuard (d :: rest') = true
      · have htag : findTagLen (d :: rest') = none := by
          rcases hft : findTagLen (d :: rest') with _ | w
          · rfl
          · rw [hc36, hg, hft] at hdol
            simp at hdol
        have hnone := normAux_noTag fuel (some c) (d :: rest') hlen htag
        rw [hnone]
        simp
      · cases fuel with
        | zero => simp at hlen
        | succ f =>
          obtain ⟨t, ht⟩ := normAux_head f (some c) d rest'
          rw [ht]
          have hgt : dollarGuard (d :: t) = false := by
            simp only [dollarGuard] at hg ⊢
            simpa using hg
          simp [hgt]
  · simp [hc36]

theorem normAux_clean (fuel : Nat) : ∀ (prev : Option Nat) (l : List Nat),
    l.length ≤ fuel → cleanAux prev l = true →
    cleanAux prev (normAux fuel prev l) = true := by
  induction fuel with
  | zero =>
    intro prev l hlen h
    have : l = [] := List.length_eq_zero.mp (Nat.le_zero.mp hlen)
    subst this
    exact h
  | succ fuel ih =>
    intro prev l hlen h
    rcases l with _ | ⟨c, rest⟩
    · exact h
    · have h' := h
      simp only [cleanAux, Bool.and_eq_true, Bool.not_eq_true'] at h'
      obtain ⟨⟨⟨h39, hdig⟩, hdol⟩, hrest⟩ := h'
      have hlen' : rest.length ≤ fuel := by
        simp only [List.length_cons] at hlen; omega
      rcases rest with _ | ⟨c2, rest2⟩
      · show cleanAux prev (c :: normAux fuel (some c) []) = true
        refine cleanAux_cons_normAux fuel prev c [] (by simp) h39 hdig hdol ?_
        rw [normAux_nil]
        rfl
      · rcases rest2 with _ | ⟨c3, r3⟩
        · show cleanAux prev (c :: normAux fuel (some c) [c2]) = true
          exact cleanAux_cons_normAux fuel prev c [c2] hlen' h39 hdig hdol
            (ih (some c) [c2] hlen' hrest)
        · by_cases hcond :
            (toUpperByte c == 73 && toUpperByte c2 == 78 &&
              !prevIsAlnum prev) = true
          · rcases hrem : inListAfterIN (c3 :: r3) with _ | rem
            · have hstep : normAux (fuel + 1) prev (c :: c2 :: c3 :: r3) =
                  c :: normAux fuel (some c) (c2 :: c3 :: r3) := by
                simp only [normAux, hcond, if_true, hrem]
              rw [hstep]
              exact cleanAux_cons_normAux fuel prev c (c2 :: c3 :: r3) hlen'
                h39 hdig hdol (ih (some c) (c2 :: c3 :: r3) hlen' hrest)
            · have hstep : normAux (fuel + 1) prev (c :: c2 :: c3 :: r3) =
                  c :: c2 :: 32 :: 40 :: 36 :: 46 :: 46 :: 46 :: 41 ::
                    normAux fuel (some 41) rem := by
                simp only [normAux, hcond, if_true, hrem]
              rw [hstep]
              have hconds := hcond
              simp only [Bool.and_eq_true, beq_iff_eq] at hconds
              obtain ⟨⟨h73, h78⟩, hpal⟩ := hconds
              have hcf := upper_letter_byte_facts c 73 h73 (by omega) (by omega)
              have hc2f := upper_letter_byte_facts c2 78 h78 (by omega) (by omega)
              obtain ⟨v, hv⟩ := inListAfterIN_split (c3 :: r3) rem hrem
              have hdecomp : c :: c2 :: c3 :: r3 =
                  ((c :: c2 :: v) ++ [41]) ++ rem := by
                rw [hv]; simp
              have hremclean : cleanAux (some 41) rem = true := by
                have hap := cleanAux_append ((c :: c2 :: v) ++ [41]) prev rem
                  (by rw [← hdecomp]; exact h)
                rwa [prevAfter_append_last] at hap
              have hremlen : rem.length ≤ fuel := by
                have heq : (c3 :: r3).length = v.length + 1 + rem.length := by
                  rw [hv]; simp; omega
                simp only [List.length_cons] at hlen heq
                omega
              refine cleanAux_cons_intro prev c _ hcf.1
                (by simp [hcf.2.1]) (by simp [hcf.2.2]) ?_
              refine cleanAux_cons_intro (some c) c2 _ hc2f.1
                (by simp [hc2f.2.1]) (by simp [hc2f.2.2]) ?_
              refine cleanAux_cons_intro (some c2) 32 _ (by decide)
                (by simp [isDigitByte]) (by simp) ?_
              refine cleanAux_cons_intro (some 32) 40 _ (by decide)
                (by simp [isDigitByte]) (by simp) ?_
              refine cleanAux_cons_intro (some 40) 36 _ (by decide)
                (by simp [isDigitByte]) (by simp [dollarGuard, isAlphaByte,
                  isUpperByte, isLowerByte]) ?_
              refine cleanAux_cons_intro (some 36) 46 _ (by decide)
                (by simp [isDigitByte]) (by simp) ?_
              refine cleanAux_cons_intro (some 46) 46 _ (by decide)
                (by simp [isDigitByte]) (by simp) ?_
              refine cleanAux_cons_intro (some 46) 46 _ (by decide)
                (by simp [isDigitByte]) (by simp) ?_
              refine cleanAux_cons_intro (some 46) 41 _ (by decide)
                (by simp [isDigitByte]) (by simp) ?_
              exact ih (some 41) rem hremlen hremclean
          · have hstep : normAux (fuel + 1) prev (c :: c2 :: c3 :: r3) =
                c :: normAux fuel (some c) (c2 :: c3 :: r3) := by
              simp only [normAux]
              rw [if_neg hcond]
            rw [hstep]
            exact cleanAux_cons_normAux fuel prev c (c2 :: c3 :: r3) hlen'
              h39 hdig hdol (ih (some c) (c2 :: c3 :: r3) hlen' hrest)

theorem toLowerByte_spec (b : Nat) :
    (65 ≤ b ∧ b ≤ 90 ∧ toLowerByte b = b + 32) ∨
      (¬(65 ≤ b ∧ b ≤ 90) ∧ toLowerByte b = b) := by
  unfold toLowerByte isUpperByte
  split_ifs with h
  · simp only [Bool.and_eq_true, decide_eq_true_eq] at h
    exact Or.inl ⟨h.1, h.2, rfl⟩
  · simp only [Bool.and_eq_true, decide_eq_true_eq, not_and, not_le] at h
    refine Or.inr ⟨?_, rfl⟩
    intro hc
    exact absurd (h hc.1) (by omega)

theorem toLowerByte_idem (b : Nat) :
    toLowerByte (toLowerByte b) = toLowerByte b := by
  rcases toLowerByte_spec b with ⟨h1, h2, he⟩ | ⟨h, he⟩
  · rw [he]
    rcases toLowerByte_spec (b + 32) with ⟨g1, g2, ge⟩ | ⟨g, ge⟩
    · omega
    · exact ge
  · rw [he]; exact he

theorem toLowerByte_ne_NS (b : Nat) :
    toLowerByte b ≠ 78 ∧ toLowerByte b ≠ 83 := by
  rcases toLowerByte_spec b with ⟨h1, h2, he⟩ | ⟨h, he⟩ <;> rw [he] <;>
    constructor <;> omega

theorem toLowerByte_pres (b : Nat) :
    (toLowerByte b == 39) = (b == 39) ∧ (toLowerByte b == 36) = (b == 36) ∧
      (toLowerByte b == 95) = (b == 95) ∧
      isDigitByte (toLowerByte b) = isDigitByte b ∧
      isAlphaByte (toLowerByte b) = isAlphaByte b ∧
      isIdentByte (toLowerByte b) = isIdentByte b := by
  rcases toLowerByte_spec b with ⟨h1, h2, he⟩ | ⟨h, he⟩
  · rw [he]
    refine ⟨?_, ?_, ?_, ?_, ?_, ?_⟩
    · rw [show (b + 32 == 39) = false by
          simp only [beq_eq_false_iff_ne]; omega,
        show (b == 39) = false by simp only [beq_eq_false_iff_ne]; omega]
    · rw [show (b + 32 == 36) = false by
          simp only [beq_eq_false_iff_ne]; omega,
        show (b == 36) = false by simp only [beq_eq_false_iff_ne]; omega]
    · rw [show (b + 32 == 95) = false by
          simp only [beq_eq_false_iff_ne]; omega,
        show (b == 95) = false by simp only [beq_eq_false_iff_ne]; omega]
    · rw [show isDigitByte (b + 32) = false by
          simp only [isDigitByte, Bool.and_eq_false_iff,
            decide_eq_false_iff_not]; omega,
        show isDigitByte b = false by
          simp only [isDigitByte, Bool.and_eq_false_iff,
            decide_eq_false_iff_not]; omega]
    · rw [show isAlphaByte (b + 32) = true by
          simp only [isAlphaByte, isUpperByte, isLowerByte, Bool.or_eq_true,
            Bool.and_eq_true, decide_eq_true_eq]; omega,
        show isAlphaByte b = true by
          simp only [isAlphaByte, isUpperByte, isLowerByte, Bool.or_eq_true,
            Bool.and_eq_true, decide_eq_true_eq]; omega]
    · rw [show isIdentByte (b + 32) = true by
          simp only [isIdentByte, isAlnumByte, isAlphaByte, isUpperByte,
            isLowerByte, isDigitByte, Bool.or_eq_true, Bool.and_eq_true,
            decide_eq_true_eq]; omega,
        show isIdentByte b = true by
          simp only [isIdentByte, isAlnumByte, isAlphaByte, isUpperByte,
            isLowerByte, isDigitByte, Bool.or_eq_true, Bool.and_eq_true,
            decide_eq_true_eq]; omega]
  · rw [he]
    exact ⟨rfl, rfl, rfl, rfl, rfl, rfl⟩

theorem takeWhile_ident_map (l : List Nat) :
    (l.map toLowerByte).takeWhile (fun b => isIdentByte b) =
      (l.takeWhile fun b => isIdentByte b).map toLowerByte := by
  induction l with
  | nil => rfl
  | cons c t ih =>
    by_cases h : isIdentByte c = true
    · simp only [List.map_cons, List.takeWhile_cons,
        (toLowerByte_pres c).2.2.2.2.2, h, if_true, ih]
    · simp only [List.map_cons, List.takeWhile_cons,
        (toLowerByte_pres c).2.2.2.2.2, h, Bool.false_eq_true, if_false,
        List.map_nil]

theorem findTagLen_map_lower (l : List Nat) :
    findTagLen (l.map toLowerByte) = findTagLen l := by
  simp only [findTagLen, takeWhile_ident_map, List.length_map,
    ← List.map_drop]
  rcases l.drop (l.takeWhile fun b => isIdentByte b).length with _ | ⟨d, t⟩
  · rfl
  · simp only [List.map_cons, (toLowerByte_pres d).2.1]

theorem dollarGuard_map_lower (l : List Nat) :
    dollarGuard (l.map toLowerByte) = dollarGuard l := by
  rcases l with _ | ⟨d, t⟩
  · rfl
  · simp only [List.map_cons, dollarGuard, (toLowerByte_pres d).2.1,
      (toLowerByte_pres d).2.2.1, (toLowerByte_pres d).2.2.2.2.1]

theorem prevIsIdent_map_lower (prev : Option Nat) :
    prevIsIdent (prev.map toLowerByte) = prevIsIdent prev := by
  rcases prev with _ | b
  · rfl
  · exact (toLowerByte_pres b).2.2.2.2.2

theorem cleanAux_map_lower (l : List Nat) : ∀ (prev : Option Nat),
    cleanAux prev l = true →
    cleanAux (prev.map toLowerByte) (l.map toLowerByte) = true := by
  induction l with
  | nil => intro prev _; rfl
  | cons c rest ih =>
    intro prev h
    simp only [cleanAux, Bool.and_eq_true, Bool.not_eq_true'] at h
    obtain ⟨⟨⟨h39, hdig⟩, hdol⟩, hrest⟩ := h
    simp only [List.map_cons]
    refine cleanAux_cons_intro _ _ _ ?_ ?_ ?_ ?_
    · rw [(toLowerByte_pres c).1]; exact h39
    · rw [(toLowerByte_pres c).2.2.2.1, prevIsIdent_map_lower]; exact hdig
    · rw [(toLowerByte_pres c).2.1, dollarGuard_map_lower,
        findTagLen_map_lower]
      exact hdol
    · exact ih (some c) hrest

theorem placeholdersScan_none (t : List Nat)
    (h : ∀ b ∈ t, b ≠ 78 ∧ b ≠ 83) : placeholdersScan false t = none := by
  induction t with
  | nil => rfl
  | cons c t' ih =>
    rw [placeholdersScan.eq_def]
    simp only []
    by_cases h41 : (c == 41) = true
    · rw [if_pos h41, if_neg Bool.false_ne_true]
    · rw [if_neg h41]
      by_cases h36 : (c == 36) = true
      · rw [if_pos h36]
        rcases t' with _ | ⟨d, t2⟩
        · rfl
        · have hd := h d (by simp)
          have : (d == 78 || d == 83) = false := by
            simp only [Bool.or_eq_false_iff, beq_eq_false_iff_ne]
            exact hd
          simp only [this, Bool.false_eq_true, if_false]
      · rw [if_neg h36]
        by_cases hcs : (c == 44 || c == 32) = true
        · rw [if_pos hcs]
          exact ih fun b hb => h b (by simp [hb])
        · rw [if_neg hcs]

theorem skipWs_mem (l : List Nat) (b : Nat) (h : b ∈ skipWs l) : b ∈ l := by
  induction l with
  | nil => exact h
  | cons c t ih =>
    by_cases hc : isSpaceByte c = true
    · simp only [skipWs, hc, if_true] at h
      exact List.mem_cons_of_mem c (ih h)
    · simpa [skipWs, hc] using h

theorem inListAfterIN_none (l : List Nat)
    (h : ∀ b ∈ l, b ≠ 78 ∧ b ≠ 83) : inListAfterIN l = none := by
  unfold inListAfterIN
  split
  · rename_i t heq
    refine placeholdersScan_none t fun b hb => h b ?_
    exact skipWs_mem l b (by rw [heq]; exact List.mem_cons_of_mem 40 hb)
  · rfl

theorem normAux_id (fuel : Nat) : ∀ (prev : Option Nat) (l : List Nat),
    l.length ≤ fuel → (∀ b ∈ l, b ≠ 78 ∧ b ≠ 83) →
    normAux fuel prev l = l := by
  induction fuel with
  | zero =>
    intro prev l hlen _
    have : l = [] := List.length_eq_zero.mp (Nat.le_zero.mp hlen)
    subst this
    rfl
  | succ fuel ih =>
    intro prev l hlen h
    rcases l with _ | ⟨c, rest⟩
    · rfl
    · have hlen' : rest.length ≤ fuel := by
        simp only [List.length_cons] at hlen; omega
      have hrest : ∀ b ∈ rest, b ≠ 78 ∧ b ≠ 83 :=
        fun b hb => h b (by simp [hb])
      rcases rest with _ | ⟨c2, rest2⟩
      · show c :: normAux fuel (some c) [] = [c]
        rw [normAux_nil]
      · rcases rest2 with _ | ⟨c3, r3⟩
        · show c :: normAux fuel (some c) [c2] = [c, c2]
          rw [ih (some c) [c2] hlen' hrest]
        · by_cases hcond :
            (toUpperByte c == 73 && toUpperByte c2 == 78 &&
              !prevIsAlnum prev) = true
          · have hrem : inListAfterIN (c3 :: r3) = none :=
              inListAfterIN_none (c3 :: r3)
                (fun b hb => hrest b (by simp [List.mem_cons] at hb ⊢; tauto))
            have hstep : normAux (fuel + 1) prev (c :: c2 :: c3 :: r3) =
                c :: normAux fuel (some c) (c2 :: c3 :: r3) := by
              simp only [normAux, hcond, if_true, hrem]
            rw [hstep, ih (some c) (c2 :: c3 :: r3) hlen' hrest]
          · have hstep : normAux (fuel + 1) prev (c :: c2 :: c3 :: r3) =
                c :: normAux fuel (some c) (c2 :: c3 :: r3) := by
              simp only [normAux]
              rw [if_neg hcond]
            rw [hstep, ih (some c) (c2 :: c3 :: r3) hlen' hrest]

/-- Claim C7: fingerprint is idempotent on SQL that contains no literals
(no single-quoted string, no dollar-quoted string, and no numeric literal,
as the scanner detects them): fingerprint (fingerprint s) = fingerprint s. -/
theorem fingerprint_idempotent (s : List Nat) (h : noLiterals s) :
    fingerprint (fingerprint s) = fingerprint s := by
  unfold noLiterals at h
  have hscan : fpScan s = s := scanAux_id s s.length none le_rfl h
  have hfp : fingerprint s = (normAux s.length none s).map toLowerByte := by
    unfold fingerprint normalizeInLists
    rw [hscan]
  have hcleann : cleanAux none (normAux s.length none s) = true :=
    normAux_clean s.length none s le_rfl h
  have hcleant :
      cleanAux none ((normAux s.length none s).map toLowerByte) = true := by
    exact cleanAux_map_lower (normAux s.length none s) none hcleann
  have hNS : ∀ b ∈ (normAux s.length none s).map toLowerByte,
      b ≠ 78 ∧ b ≠ 83 := by
    intro b hb
    obtain ⟨a, _, rfl⟩ := List.mem_map.mp hb
    exact toLowerByte_ne_NS a
  rw [hfp]
  unfold fingerprint normalizeInLists fpScan
  rw [scanAux_id _ _ none le_rfl hcleant,
    normAux_id _ none _ le_rfl hNS, List.map_map]
  exact List.map_congr_left fun a _ => toLowerByte_idem a

/-- Witness for claim C7 on a literal-free query with a textual placeholder
inside an IN list, which exercises the collapse pass. -/
theorem fingerprint_idempotent_witness :
    noLiterals (asciiBytes "SELECT x FROM t WHERE id IN ($N)") ∧
    fingerprint (fingerprint (asciiBytes "SELECT x FROM t WHERE id IN ($N)")) =
      fingerprint (asciiBytes "SELECT x FROM t WHERE id IN ($N)") :=
  ⟨by decide, fingerprint_idempotent _ (by decide)⟩
/-! ### Unit tests of the sources, replayed on the embedding -/

example :
    fingerprint (asciiBytes "SELECT * FROM users WHERE name = 'alice'") =
      asciiBytes "select * from users where name = $s" := by decide

example :
    fingerprint (asciiBytes "SELECT * FROM users WHERE id = 42") =
      asciiBytes "select * from users where id = $n" := by decide

example :
    fingerprint (asciiBytes "SELECT * FROM t WHERE name = 'it''s'") =
      asciiBytes "select * from t where name = $s" := by decide

example :
    fingerprint
        (asciiBytes
          "UPDATE orders SET status = 'shipped' WHERE id = 123 AND price > 9.99") =
      asciiBytes "update orders set status = $s where id = $n and price > $n" := by
  decide

example :
    tryParse readyParser (mkQueryMsg (asciiBytes "SELECT * FROM users"))
        Direction.Frontend =
      (some (ProtoEvent.QueryStart (asciiBytes "SELECT * FROM users"), 25),
        readyParser) := by decide

example :
    tryParse readyParser (mkCommandComplete (asciiBytes "SELECT 5"))
        Direction.Backend =
      (some (ProtoEvent.QueryComplete (asciiBytes "SELECT 5") (some 5), 14),
        readyParser) := by decide

example :
    tryParse readyParser (mkReadyForQuery 73) Direction.Backend =
      (some (ProtoEvent.ConnectionReady TxStatus.Idle, 6), readyParser) := by
  decide

example :
    (tryParse PostgresParser.new (mkStartupMsg startupVersion30)
        Direction.Frontend).2.phase = ConnPhase.Authenticating := by decide

example :
    tryParse readyParser [81, 0, 0] Direction.Frontend =
      (none, readyParser) := by decide
